import Mathlib

/-!
Verification development for the simple-lock-free-queue repository
(two C++ classes, `MPSC_Queue<T>` in mpsc_queue.h and `MPMC_Queue<T>` in
mpmc_queue.h).

Shallow embedding: heap nodes live at natural-number addresses in an
explicit heap (a list of optional nodes; a freed or never-allocated cell
is `none`).  A C++ `Node*` is `Option Nat` (`none` = nullptr), a
`std::unique_ptr<T>` payload is `Option α` (`none` = null / moved-out).
Each member function of the two classes becomes a Lean function on
(heap, queue-object) pairs; an operation that would dereference a null
or dangling pointer (undefined behaviour in the source) returns `none`
at the outer `Option` layer.  Loops (`size_approx`, `clean_nodes`, the
CAS retry loop of `MPMC_Queue::dequeue`) take explicit fuel; in every
well-formed state the fuel supplied is enough, mirroring termination of
the real loops.
-/

/-- Embedding of `struct Node` (identical in both headers):
`std::unique_ptr<T> data; std::atomic<Node*> next;`. -/
structure Node (α : Type) where
  data : Option α
  next : Option Nat
deriving DecidableEq, Repr

/-- The heap: cell `a` holds `some node` when address `a` is allocated,
`none` when it was freed or never allocated.  Allocation appends. -/
structure Heap (α : Type) where
  cells : List (Option (Node α))
deriving DecidableEq, Repr

namespace Heap

variable {α : Type}

/-- Dereference address `a` (`*a` in the source); `none` models a read
through a dangling or out-of-range pointer. -/
def read (h : Heap α) (a : Nat) : Option (Node α) :=
  (h.cells[a]?).getD none

/-- Overwrite the node stored at address `a` (a field store in the source). -/
def write (h : Heap α) (a : Nat) (n : Node α) : Heap α :=
  ⟨h.cells.set a (some n)⟩

/-- Embedding of `delete p`: the cell becomes unallocated. -/
def free (h : Heap α) (a : Nat) : Heap α :=
  ⟨h.cells.set a none⟩

/-- Embedding of `new Node(...)`: returns the grown heap and the fresh
address.  Addresses are never reused. -/
def alloc (h : Heap α) (n : Node α) : Heap α × Nat :=
  (⟨h.cells ++ [some n]⟩, h.cells.length)

theorem read_lt_length {h : Heap α} {a : Nat} {n : Node α}
    (hr : h.read a = some n) : a < h.cells.length := by
  by_contra hge
  have hle : h.cells.length ≤ a := Nat.le_of_not_lt hge
  simp [read, List.getElem?_eq_none hle] at hr

theorem read_write_self {h : Heap α} {a : Nat} (hlt : a < h.cells.length)
    (n : Node α) : (h.write a n).read a = some n := by
  simp [read, write, List.getElem?_set_self hlt]

theorem read_write_ne {h : Heap α} {a b : Nat} (hne : a ≠ b) (n : Node α) :
    (h.write a n).read b = h.read b := by
  simp [read, write, List.getElem?_set_ne hne]

theorem read_free_self (h : Heap α) (a : Nat) : (h.free a).read a = none := by
  rcases Nat.lt_or_ge a h.cells.length with hlt | hge
  · simp [read, free, List.getElem?_set_self hlt]
  · have hnone : (h.cells.set a none)[a]? = none :=
      List.getElem?_eq_none (by simpa using hge)
    simp [read, free, hnone]

theorem read_free_ne {h : Heap α} {a b : Nat} (hne : a ≠ b) :
    (h.free a).read b = h.read b := by
  simp [read, free, List.getElem?_set_ne hne]

theorem read_alloc_self (h : Heap α) (n : Node α) :
    (h.alloc n).1.read (h.alloc n).2 = some n := by
  simp [read, alloc, List.getElem?_concat_length]

theorem read_alloc_old {h : Heap α} {b : Nat} (hlt : b < h.cells.length)
    (n : Node α) : (h.alloc n).1.read b = h.read b := by
  simp [read, alloc, List.getElem?_append_left hlt]

theorem length_write (h : Heap α) (a : Nat) (n : Node α) :
    (h.write a n).cells.length = h.cells.length := by
  simp [write]

theorem length_free (h : Heap α) (a : Nat) :
    (h.free a).cells.length = h.cells.length := by
  simp [free]

theorem length_alloc (h : Heap α) (n : Node α) :
    (h.alloc n).1.cells.length = h.cells.length + 1 := by
  simp [alloc]

end Heap

/-- Follow `next` links from address `a`, collecting each visited
address with the payload stored there, until a node whose `next` is
null; `none` when the fuel runs out (a cyclic or unterminated walk) or
when a visited address is dangling. -/
def chainFrom {α : Type} (h : Heap α) : Nat → Nat → Option (List (Nat × Option α))
  | 0, _ => none
  | fuel + 1, a =>
    match h.read a with
    | none => none
    | some n =>
      match n.next with
      | none => some [(a, n.data)]
      | some b => (chainFrom h fuel b).map (fun l => (a, n.data) :: l)

namespace chainFrom

variable {α : Type} {h h' : Heap α}

theorem ne_nil {f a : Nat} {l : List (Nat × Option α)}
    (hc : chainFrom h f a = some l) : l ≠ [] := by
  cases f with
  | zero => simp [chainFrom] at hc
  | succ f =>
    cases hr : h.read a with
    | none => simp [chainFrom, hr] at hc
    | some n =>
      cases hn : n.next with
      | none => simp [chainFrom, hr, hn] at hc; simp [← hc]
      | some b =>
        simp only [chainFrom, hr, hn, Option.map_eq_some'] at hc
        obtain ⟨l', _, hl⟩ := hc
        simp [← hl]

theorem head_eq {f a : Nat} {l : List (Nat × Option α)}
    (hc : chainFrom h f a = some l) :
    ∃ d rest, l = (a, d) :: rest := by
  cases f with
  | zero => simp [chainFrom] at hc
  | succ f =>
    cases hr : h.read a with
    | none => simp [chainFrom, hr] at hc
    | some n =>
      cases hn : n.next with
      | none => simp [chainFrom, hr, hn] at hc; exact ⟨n.data, [], hc.symm⟩
      | some b =>
        simp only [chainFrom, hr, hn, Option.map_eq_some'] at hc
        obtain ⟨l', _, hl⟩ := hc
        exact ⟨n.data, l', hl.symm⟩

/-- Every address visited by a successful walk is allocated, and the
payload recorded is the payload stored there. -/
theorem mem_read {f a : Nat} {l : List (Nat × Option α)}
    (hc : chainFrom h f a = some l) :
    ∀ p ∈ l, ∃ n : Node α, h.read p.1 = some n ∧ n.data = p.2 := by
  induction f generalizing a l with
  | zero => simp [chainFrom] at hc
  | succ f ih =>
    cases hr : h.read a with
    | none => simp [chainFrom, hr] at hc
    | some n =>
      cases hn : n.next with
      | none =>
        simp [chainFrom, hr, hn] at hc
        intro p hp
        rw [← hc] at hp
        simp at hp
        subst hp
        exact ⟨n, hr, rfl⟩
      | some b =>
        simp only [chainFrom, hr, hn, Option.map_eq_some'] at hc
        obtain ⟨l', hl', hl⟩ := hc
        intro p hp
        rw [← hl] at hp
        rcases List.mem_cons.mp hp with hph | hpt
        · exact ⟨n, by rw [hph, hr], by rw [hph]⟩
        · exact ih hl' p hpt

/-- The walk only looks at the cells it reports: any heap agreeing on
those cells produces the same walk. -/
theorem congr_heap {f a : Nat} {l : List (Nat × Option α)}
    (hagree : ∀ x ∈ l.map Prod.fst, h'.read x = h.read x)
    (hc : chainFrom h f a = some l) :
    chainFrom h' f a = some l := by
  induction f generalizing a l with
  | zero => simp [chainFrom] at hc
  | succ f ih =>
    cases hr : h.read a with
    | none => simp [chainFrom, hr] at hc
    | some n =>
      cases hn : n.next with
      | none =>
        simp [chainFrom, hr, hn] at hc
        have ha : h'.read a = some n := by
          rw [hagree a (by simp [← hc]), hr]
        simp [chainFrom, ha, hn, hc]
      | some b =>
        simp only [chainFrom, hr, hn, Option.map_eq_some'] at hc
        obtain ⟨l', hl', hl⟩ := hc
        have ha : h'.read a = some n := by
          rw [hagree a (by simp [← hl]), hr]
        have hrec : chainFrom h' f b = some l' := by
          apply ih _ hl'
          intro x hx
          exact hagree x (by rw [← hl]; simp [hx])
        simp [chainFrom, ha, hn, hrec, hl]

/-- Fuel irrelevance: any fuel at least the length of the reported walk
produces the same walk. -/
theorem fuel_ge {f a : Nat} {l : List (Nat × Option α)}
    (hc : chainFrom h f a = some l) :
    ∀ f', l.length ≤ f' → chainFrom h f' a = some l := by
  induction f generalizing a l with
  | zero => simp [chainFrom] at hc
  | succ f ih =>
    cases hr : h.read a with
    | none => simp [chainFrom, hr] at hc
    | some n =>
      cases hn : n.next with
      | none =>
        simp [chainFrom, hr, hn] at hc
        intro f' hf'
        rw [← hc] at hf'
        cases f' with
        | zero => simp at hf'
        | succ f'' => simp [chainFrom, hr, hn, hc]
      | some b =>
        simp only [chainFrom, hr, hn, Option.map_eq_some'] at hc
        obtain ⟨l', hl', hl⟩ := hc
        intro f' hf'
        rw [← hl] at hf'
        cases f' with
        | zero => simp at hf'
        | succ f'' =>
          have : l'.length ≤ f'' := by
            simp at hf'; omega
          simp [chainFrom, hr, hn, ih hl' f'' this, hl]

/-- The last node of the walk exists in the heap, carries the recorded
payload, and has a null `next`. -/
theorem getLast_read {f a : Nat} {l : List (Nat × Option α)}
    {t : Nat × Option α}
    (hc : chainFrom h f a = some l) (hlast : l.getLast? = some t) :
    ∃ n : Node α, h.read t.1 = some n ∧ n.data = t.2 ∧ n.next = none := by
  induction f generalizing a l with
  | zero => simp [chainFrom] at hc
  | succ f ih =>
    cases hr : h.read a with
    | none => simp [chainFrom, hr] at hc
    | some n =>
      cases hn : n.next with
      | none =>
        simp [chainFrom, hr, hn] at hc
        rw [← hc] at hlast
        simp [List.getLast?] at hlast
        exact ⟨n, by rw [← hlast, hr], by rw [← hlast], hn⟩
      | some b =>
        simp only [chainFrom, hr, hn, Option.map_eq_some'] at hc
        obtain ⟨l', hl', hl⟩ := hc
        rw [← hl] at hlast
        have hne : l' ≠ [] := ne_nil hl'
        have hlast' : l'.getLast? = some t := by
          cases hgl : l'.getLast? with
          | none => exact absurd (List.getLast?_eq_none_iff.mp hgl) hne
          | some t' =>
            rw [List.getLast?_cons, hgl] at hlast
            simpa using hlast
        exact ih hl' hlast'

end chainFrom

/-- Embedding of `class MPSC_Queue` from mpsc_queue.h: fields
`std::atomic<Node*> tail; Node* head;` (a pointer is `Option Nat`,
`none` = nullptr, which only arises in the moved-from state). -/
structure MPSC_Queue (α : Type) where
  tail : Option Nat
  head : Option Nat
deriving DecidableEq, Repr

namespace MPSC_Queue

variable {α : Type}

/-- Embedding of the constructor `MPSC_Queue()`: allocate a dummy
(sentinel) node with null payload and null next; head and tail both
reference it. -/
def construct (h : Heap α) : Heap α × MPSC_Queue α :=
  let (h1, dummy) := h.alloc ⟨none, none⟩
  (h1, { tail := some dummy, head := some dummy })

/-- Embedding of `enqueue(U&& value)`:
allocate `new Node(value)`; `prev_tail = tail.exchange(new_node)`;
`prev_tail->next.store(new_node)`.  Returns `none` when the store
dereferences a null or dangling previous tail (moved-from state). -/
def enqueue (h : Heap α) (q : MPSC_Queue α) (v : α) :
    Option (Heap α × MPSC_Queue α) :=
  let (h1, new_node) := h.alloc ⟨some v, none⟩
  match q.tail with
  | none => none
  | some prev_tail =>
    match h1.read prev_tail with
    | none => none
    | some pn =>
      some (h1.write prev_tail ⟨pn.data, some new_node⟩,
            { tail := some new_node, head := q.head })

/-- Embedding of `dequeue()`:
`next_node = head->next.load()`; if null return nullptr; else
`result = std::move(next_node->data); delete head; head = next_node`.
The returned inner `Option α` is the `std::unique_ptr<T>` result
(`none` = nullptr, queue empty); the outer `Option` is `none` on a
null/dangling dereference. -/
def dequeue (h : Heap α) (q : MPSC_Queue α) :
    Option (Option α × Heap α × MPSC_Queue α) :=
  match q.head with
  | none => none
  | some hd =>
    match h.read hd with
    | none => none
    | some hnode =>
      match hnode.next with
      | none => some (none, h, q)
      | some next_node =>
        match h.read next_node with
        | none => none
        | some nnode =>
          some (nnode.data,
                (h.write next_node ⟨none, nnode.next⟩).free hd,
                { tail := q.tail, head := some next_node })

/-- Embedding of `is_empty()`: load `head->next` once and report
whether it is null. -/
def is_empty (h : Heap α) (q : MPSC_Queue α) : Option Bool :=
  match q.head with
  | none => none
  | some current_head =>
    match h.read current_head with
    | none => none
    | some n => some n.next.isNone

/-- Loop body of `size_approx()`: `while (current != tail_node)` keep
following `next`, counting, breaking on a null `next`.  `current` and
`tail_node` are raw pointers, hence `Option Nat`.  Fuel bounds the
number of iterations; `none` = the walk ran out of fuel or dereferenced
a dangling pointer. -/
def sizeAux (h : Heap α) : Nat → Option Nat → Option Nat → Int → Option Int
  | 0, _, _, _ => none
  | fuel + 1, current, tail_node, count =>
    if current = tail_node then some count
    else
      match current with
      | none => none
      | some c =>
        match h.read c with
        | none => none
        | some n =>
          match n.next with
          | none => some count
          | some nxt => sizeAux h fuel (some nxt) tail_node (count + 1)

/-- Embedding of `size_approx()`: snapshot `tail`, then walk from
`head` toward it.  The fuel `h.cells.length + 1` dominates the length
of any acyclic chain in the heap. -/
def size_approx (h : Heap α) (q : MPSC_Queue α) : Option Int :=
  sizeAux h (h.cells.length + 1) q.head q.tail 0

/-- Loop of `clean_nodes()`: `current = head; while (current) { next =
current->next; delete current; current = next; }`.  Returns the final
heap and the addresses freed, in order. -/
def cleanAux (h : Heap α) : Nat → Option Nat → List Nat →
    Option (Heap α × List Nat)
  | 0, _, _ => none
  | _ + 1, none, freed => some (h, freed.reverse)
  | fuel + 1, some c, freed =>
    match h.read c with
    | none => none
    | some n => cleanAux (h.free c) fuel n.next (c :: freed)

/-- Embedding of `clean_nodes()` (also the body of the destructor
`~MPSC_Queue()`). -/
def clean_nodes (h : Heap α) (q : MPSC_Queue α) :
    Option (Heap α × List Nat) :=
  cleanAux h (h.cells.length + 1) q.head []

/-- Embedding of the move assignment operator.  Pointer identity of
`this` and `other` is not representable in a value-level state, so the
`this != &other` test is passed in as `sameObject`.  On a genuine move:
clean up the current nodes, take over the source's tail and head, and
null the source's pointers.  Returns (heap, this-after, other-after). -/
def moveAssign (h : Heap α) (self other : MPSC_Queue α)
    (sameObject : Bool) : Option (Heap α × MPSC_Queue α × MPSC_Queue α) :=
  if sameObject then some (h, self, other)
  else
    match clean_nodes h self with
    | none => none
    | some (h1, _) =>
      some (h1, { tail := other.tail, head := other.head },
            { tail := none, head := none })

/-- Embedding of the move constructor: steal the source's tail and
head, then null the source's pointers. -/
def moveCtor (h : Heap α) (other : MPSC_Queue α) :
    Heap α × MPSC_Queue α × MPSC_Queue α :=
  (h, { tail := other.tail, head := other.head },
   { tail := none, head := none })

end MPSC_Queue

/-- Embedding of `class MPMC_Queue` from mpmc_queue.h: fields
`std::atomic<Node*> head; std::atomic<Node*> tail;`. -/
structure MPMC_Queue (α : Type) where
  head : Option Nat
  tail : Option Nat
deriving DecidableEq, Repr

namespace MPMC_Queue

variable {α : Type}

/-- View an `MPMC_Queue` object through the field layout of
`MPSC_Queue`; the sequential semantics of the shared member functions
coincide under this mapping. -/
def toMPSC (q : MPMC_Queue α) : MPSC_Queue α :=
  { tail := q.tail, head := q.head }

/-- Embedding of the constructor `MPMC_Queue()`. -/
def construct (h : Heap α) : Heap α × MPMC_Queue α :=
  let (h1, dummy) := h.alloc ⟨none, none⟩
  (h1, { head := some dummy, tail := some dummy })

/-- Embedding of `enqueue(U&& value)`: allocate the node, redundantly
store null into its `next`, exchange `tail`, then link the previous
tail to the new node. -/
def enqueue (h : Heap α) (q : MPMC_Queue α) (v : α) :
    Option (Heap α × MPMC_Queue α) :=
  let (h1, new_node) := h.alloc ⟨some v, none⟩
  let h2 := h1.write new_node ⟨some v, none⟩
  match q.tail with
  | none => none
  | some prev_tail =>
    match h2.read prev_tail with
    | none => none
    | some pn =>
      some (h2.write prev_tail ⟨pn.data, some new_node⟩,
            { head := q.head, tail := some new_node })

/-- First step of a consumer's `dequeue()` iteration:
`old_head = head.load(acquire)`. -/
def load_head (q : MPMC_Queue α) : Option Nat :=
  q.head

/-- Second step of a consumer's `dequeue()` iteration:
`next_node = old_head->next.load(acquire)`, given the raw pointer read
in the first step.  Returns `none` when `old_head` is dangling — the
dereference of a node another consumer has already deleted. -/
def load_next (h : Heap α) (old_head : Nat) : Option (Option Nat) :=
  (h.read old_head).map Node.next

/-- Embedding of `dequeue()`: the CAS retry loop, with fuel bounding
the retries.  Sequentially (no interleaved thread) the
`compare_exchange_weak` succeeds on the first iteration because `head`
cannot have changed between the load and the CAS. -/
def dequeue (h : Heap α) (q : MPMC_Queue α) :
    Nat → Option (Option α × Heap α × MPMC_Queue α)
  | 0 => none
  | fuel + 1 =>
    match q.head with
    | none => none
    | some old_head =>
      match h.read old_head with
      | none => none
      | some onode =>
        match onode.next with
        | none => some (none, h, q)
        | some next_node =>
          if q.head = some old_head then
            match h.read next_node with
            | none => none
            | some nnode =>
              some (nnode.data,
                    (h.write next_node ⟨none, nnode.next⟩).free old_head,
                    { head := some next_node, tail := q.tail })
          else
            dequeue h q fuel

/-- Embedding of `is_empty()`. -/
def is_empty (h : Heap α) (q : MPMC_Queue α) : Option Bool :=
  match q.head with
  | none => none
  | some current_head =>
    match h.read current_head with
    | none => none
    | some n => some n.next.isNone

/-- Embedding of `size_approx()` (same loop as the MPSC version, with
`head` loaded atomically). -/
def size_approx (h : Heap α) (q : MPMC_Queue α) : Option Int :=
  MPSC_Queue.sizeAux h (h.cells.length + 1) q.head q.tail 0

/-- Embedding of `clean_nodes()` (also the destructor body). -/
def clean_nodes (h : Heap α) (q : MPMC_Queue α) :
    Option (Heap α × List Nat) :=
  MPSC_Queue.cleanAux h (h.cells.length + 1) q.head []

/-- Embedding of the move assignment operator (same shape as the MPSC
one). -/
def moveAssign (h : Heap α) (self other : MPMC_Queue α)
    (sameObject : Bool) : Option (Heap α × MPMC_Queue α × MPMC_Queue α) :=
  if sameObject then some (h, self, other)
  else
    match clean_nodes h self with
    | none => none
    | some (h1, _) =>
      some (h1, { head := other.head, tail := other.tail },
            { head := none, tail := none })

/-- Embedding of the move constructor. -/
def moveCtor (h : Heap α) (other : MPMC_Queue α) :
    Heap α × MPMC_Queue α × MPMC_Queue α :=
  (h, { head := other.head, tail := other.tail },
   { head := none, tail := none })

end MPMC_Queue

namespace chainFrom

variable {α : Type}

/-- One-step unfolding: a terminal node yields a singleton walk. -/
theorem single_eq {h : Heap α} {f a : Nat} {n : Node α}
    (hr : h.read a = some n) (hn : n.next = none) :
    chainFrom h (f + 1) a = some [(a, n.data)] := by
  simp [chainFrom, hr, hn]

/-- One-step unfolding: a linked node prepends itself to the walk of
its successor. -/
theorem cons_eq {h : Heap α} {f a b : Nat} {n : Node α}
    {l : List (Nat × Option α)}
    (hr : h.read a = some n) (hn : n.next = some b)
    (hc : chainFrom h f b = some l) :
    chainFrom h (f + 1) a = some ((a, n.data) :: l) := by
  simp [chainFrom, hr, hn, hc]

/-- Inversion of a successful one-step walk. -/
theorem cons_inv {h : Heap α} {f a : Nat} {l : List (Nat × Option α)}
    (hc : chainFrom h (f + 1) a = some l) :
    ∃ n : Node α, h.read a = some n ∧
      ((n.next = none ∧ l = [(a, n.data)]) ∨
       ∃ b rest, n.next = some b ∧ chainFrom h f b = some rest ∧
         l = (a, n.data) :: rest) := by
  cases hr : h.read a with
  | none => simp [chainFrom, hr] at hc
  | some n =>
    refine ⟨n, rfl, ?_⟩
    cases hn : n.next with
    | none =>
      simp [chainFrom, hr, hn] at hc
      exact Or.inl ⟨rfl, hc.symm⟩
    | some b =>
      simp only [chainFrom, hr, hn, Option.map_eq_some'] at hc
      obtain ⟨rest, hrest, hl⟩ := hc
      exact Or.inr ⟨b, rest, rfl, hrest, hl.symm⟩

/-- Appending a node at the tail: if the heap is changed only by
pointing the old last node's `next` at a fresh node `b`, the walk grows
by exactly that node. -/
theorem snoc {h h' : Heap α} {f a : Nat} {l : List (Nat × Option α)}
    {t : Nat × Option α} {b : Nat} {db : Option α}
    (hc : chainFrom h f a = some l) (hlast : l.getLast? = some t)
    (hnodup : (l.map Prod.fst).Nodup)
    (hagree : ∀ x ∈ l.map Prod.fst, x ≠ t.1 → h'.read x = h.read x)
    (ht : h'.read t.1 = some ⟨t.2, some b⟩)
    (hb : h'.read b = some ⟨db, none⟩) :
    chainFrom h' (f + 1) a = some (l ++ [(b, db)]) := by
  induction f generalizing a l with
  | zero => simp [chainFrom] at hc
  | succ f ih =>
    obtain ⟨n, hr, hcase⟩ := cons_inv hc
    rcases hcase with ⟨hn, hl⟩ | ⟨c, rest, hn, hrest, hl⟩
    · subst hl
      simp [List.getLast?] at hlast
      have ha' : h'.read a = some ⟨n.data, some b⟩ := by
        rw [← hlast] at ht; exact ht
      have hstep : chainFrom h' (f + 1) b = some [(b, db)] :=
        single_eq hb rfl
      have hdone := cons_eq ha' rfl hstep
      simpa using hdone
    · subst hl
      have hne : rest ≠ [] := ne_nil hrest
      rw [List.map_cons] at hnodup
      have hanotin : a ∉ rest.map Prod.fst := (List.nodup_cons.mp hnodup).1
      have hlast' : rest.getLast? = some t := by
        cases hgl : rest.getLast? with
        | none => exact absurd (List.getLast?_eq_none_iff.mp hgl) hne
        | some t' =>
          rw [List.getLast?_cons, hgl] at hlast
          simpa using hlast
      have hat : a ≠ t.1 := by
        intro hat
        apply hanotin
        rw [hat]
        exact List.mem_map_of_mem Prod.fst (List.mem_of_getLast?_eq_some hlast')
      have ha' : h'.read a = some n := by
        rw [hagree a (by simp) hat, hr]
      have hrec : chainFrom h' (f + 1) c = some (rest ++ [(b, db)]) := by
        apply ih hrest hlast' (List.nodup_cons.mp hnodup).2
        intro x hx hxt
        exact hagree x (by simp [hx]) hxt
      exact cons_eq ha' hn hrec

/-- Rewriting only the payload of the first node of a walk. -/
theorem set_head_data {h : Heap α} {f a : Nat} {d : Option α}
    {rest : List (Nat × Option α)} {n : Node α}
    (hc : chainFrom h f a = some ((a, d) :: rest))
    (hr : h.read a = some n)
    (hnot : a ∉ rest.map Prod.fst) (d' : Option α) :
    chainFrom (h.write a ⟨d', n.next⟩) f a = some ((a, d') :: rest) := by
  have halt : a < h.cells.length := Heap.read_lt_length hr
  cases f with
  | zero => simp [chainFrom] at hc
  | succ f =>
    obtain ⟨n0, hr0, hcase⟩ := cons_inv hc
    have hn0 : n0 = n := by
      rw [hr0] at hr
      exact Option.some.inj hr
    subst hn0
    rcases hcase with ⟨hn, hl⟩ | ⟨c, rest0, hn, hrest0, hl⟩
    · obtain ⟨-, hrest⟩ := (List.cons.injEq _ _ _ _).mp hl
      subst hrest
      have ha' : (h.write a ⟨d', n0.next⟩).read a = some ⟨d', n0.next⟩ :=
        Heap.read_write_self halt _
      rw [hn] at ha'
      have hdone : chainFrom (h.write a ⟨d', none⟩) (f + 1) a = some [(a, d')] :=
        single_eq ha' rfl
      rw [hn]
      exact hdone
    · obtain ⟨-, hrest⟩ := (List.cons.injEq _ _ _ _).mp hl
      subst hrest
      have ha' : (h.write a ⟨d', n0.next⟩).read a = some ⟨d', n0.next⟩ :=
        Heap.read_write_self halt _
      have hrec : chainFrom (h.write a ⟨d', n0.next⟩) f c = some rest := by
        apply congr_heap _ hrest0
        intro x hx
        have hxa : a ≠ x := fun hax => hnot (hax ▸ hx)
        exact Heap.read_write_ne hxa _
      rw [hn] at ha'
      have hdone : chainFrom (h.write a ⟨d', some c⟩) (f + 1) a =
          some ((a, d') :: rest) := by
        apply cons_eq ha' rfl
        rw [← hn]
        exact hrec
      rw [hn]
      exact hdone

end chainFrom

/-- The queue object `q` owns, in heap `h`, exactly the chain `l`:
`head` points at its first node, the walk from `head` terminates and
visits `l`, `tail` points at its last node, and the visited addresses
are pairwise distinct. -/
def chainOf {α : Type} (h : Heap α) (q : MPSC_Queue α)
    (l : List (Nat × Option α)) : Prop :=
  ∃ hd f, q.head = some hd ∧ chainFrom h f hd = some l ∧
    (∃ t, l.getLast? = some t ∧ q.tail = some t.1) ∧
    (l.map Prod.fst).Nodup

/-- Well-formed single-consumer queue currently holding the element
sequence `vs`: it owns a chain whose payloads are the sentinel's null
payload followed by `vs` in order. -/
def WF {α : Type} (h : Heap α) (q : MPSC_Queue α) (vs : List α) : Prop :=
  ∃ l, chainOf h q l ∧ l.map Prod.snd = none :: vs.map some

theorem chainOf_length_le {α : Type} {h : Heap α} {q : MPSC_Queue α}
    {l : List (Nat × Option α)} (hc : chainOf h q l) :
    l.length ≤ h.cells.length := by
  obtain ⟨hd, f, _, hchain, _, hnodup⟩ := hc
  have hsub : l.map Prod.fst ⊆ List.range h.cells.length := by
    intro x hx
    rw [List.mem_range]
    obtain ⟨p, hp, hpx⟩ := List.mem_map.mp hx
    obtain ⟨n, hread, _⟩ := chainFrom.mem_read hchain p hp
    exact hpx ▸ Heap.read_lt_length hread
  have hlen := (List.subperm_of_subset hnodup hsub).length_le
  simpa using hlen

theorem construct_chain {α : Type} (h : Heap α) :
    chainOf (MPSC_Queue.construct h).1 (MPSC_Queue.construct h).2
      [(h.cells.length, none)] := by
  refine ⟨h.cells.length, 1, rfl, ?_, ⟨(h.cells.length, none), rfl, rfl⟩,
    by simp⟩
  have hread := Heap.read_alloc_self h (⟨none, none⟩ : Node α)
  exact chainFrom.single_eq hread rfl

/-- The constructor produces a well-formed empty queue. -/
theorem construct_WF {α : Type} (h : Heap α) :
    WF (MPSC_Queue.construct h).1 (MPSC_Queue.construct h).2 [] :=
  ⟨[(h.cells.length, none)], construct_chain h, by simp⟩

/-- Effect of `enqueue` on a well-formed chain: it succeeds, the new
node sits at the fresh address (the old heap's length), becomes the
tail, and the chain grows by exactly that payload-carrying node. -/
theorem enqueue_chain {α : Type} {h : Heap α} {q : MPSC_Queue α}
    {l : List (Nat × Option α)} (hc : chainOf h q l) (v : α) :
    ∃ h', MPSC_Queue.enqueue h q v =
        some (h', { tail := some h.cells.length, head := q.head }) ∧
      chainOf h' { tail := some h.cells.length, head := q.head }
        (l ++ [(h.cells.length, some v)]) ∧
      h'.cells.length = h.cells.length + 1 := by
  obtain ⟨hd, f, hhead, hchain, ⟨t, hlast, htail⟩, hnodup⟩ := hc
  obtain ⟨tn, hread_t, htdata, htnext⟩ := chainFrom.getLast_read hchain hlast
  have htlt : t.1 < h.cells.length := Heap.read_lt_length hread_t
  have hmem_lt : ∀ x ∈ l.map Prod.fst, x < h.cells.length := by
    intro x hx
    obtain ⟨p, hp, hpx⟩ := List.mem_map.mp hx
    obtain ⟨n, hread, _⟩ := chainFrom.mem_read hchain p hp
    exact hpx ▸ Heap.read_lt_length hread
  have h1read_t : (h.alloc ⟨some v, none⟩).1.read t.1 = some tn := by
    rw [Heap.read_alloc_old htlt]; exact hread_t
  have henq : MPSC_Queue.enqueue h q v =
      some ((h.alloc ⟨some v, none⟩).1.write t.1 ⟨tn.data, some h.cells.length⟩,
            { tail := some h.cells.length, head := q.head }) := by
    simp only [MPSC_Queue.enqueue, htail, Heap.alloc]
    simp only [Heap.alloc] at h1read_t
    rw [h1read_t]
  refine ⟨_, henq, ?_, by simp [Heap.length_write, Heap.length_alloc]⟩
  have hchain' : chainFrom
      ((h.alloc ⟨some v, none⟩).1.write t.1 ⟨tn.data, some h.cells.length⟩)
      (f + 1) hd = some (l ++ [(h.cells.length, some v)]) := by
    apply chainFrom.snoc hchain hlast hnodup
    · intro x hx hxt
      rw [Heap.read_write_ne (fun hh => hxt hh.symm) _,
        Heap.read_alloc_old (hmem_lt x hx)]
    · rw [Heap.read_write_self (by rw [Heap.length_alloc]; omega) _, htdata]
    · rw [Heap.read_write_ne (Nat.ne_of_lt htlt) _]
      exact Heap.read_alloc_self h _
  refine ⟨hd, f + 1, hhead, hchain', ⟨(h.cells.length, some v),
    List.getLast?_concat l, rfl⟩, ?_⟩
  rw [List.map_append]
  rw [List.nodup_append]
  refine ⟨hnodup, by simp, ?_⟩
  intro x hx
  simp only [List.map_cons, List.map_nil, List.mem_singleton]
  intro hxN
  exact absurd (hxN ▸ hmem_lt x hx) (by omega)

/-- The `enqueue` contract on well-formed queues: it always succeeds
and appends the value. -/
theorem enqueue_WF {α : Type} {h : Heap α} {q : MPSC_Queue α}
    {vs : List α} (hw : WF h q vs) (v : α) :
    ∃ h', MPSC_Queue.enqueue h q v =
        some (h', { tail := some h.cells.length, head := q.head }) ∧
      WF h' { tail := some h.cells.length, head := q.head } (vs ++ [v]) ∧
      h'.cells.length = h.cells.length + 1 := by
  obtain ⟨l, hc, hsnd⟩ := hw
  obtain ⟨h', henq, hc', hlen⟩ := enqueue_chain hc v
  exact ⟨h', henq, ⟨l ++ [(h.cells.length, some v)], hc', by
    simp [hsnd]⟩, hlen⟩

/-- A well-formed empty queue dequeues the empty result and is left
completely unchanged. -/
theorem dequeue_empty_WF {α : Type} {h : Heap α} {q : MPSC_Queue α}
    (hw : WF h q []) : MPSC_Queue.dequeue h q = some (none, h, q) := by
  obtain ⟨l, ⟨hd, f, hhead, hchain, _, _⟩, hsnd⟩ := hw
  cases f with
  | zero => simp [chainFrom] at hchain
  | succ f =>
    obtain ⟨n, hread, hcase⟩ := chainFrom.cons_inv hchain
    rcases hcase with ⟨hn, hl⟩ | ⟨c, rest, hn, hrest, hl⟩
    · simp only [MPSC_Queue.dequeue, hhead, hread, hn]
    · subst hl
      simp at hsnd
      exact absurd hsnd.2 (chainFrom.ne_nil hrest)

/-- A well-formed non-empty queue dequeues exactly its first element,
and remains well-formed on the remaining elements with the same tail. -/
theorem dequeue_cons_WF {α : Type} {h : Heap α} {q : MPSC_Queue α}
    {v : α} {vs : List α} (hw : WF h q (v :: vs)) :
    ∃ h' q', MPSC_Queue.dequeue h q = some (some v, h', q') ∧
      WF h' q' vs ∧ q'.tail = q.tail ∧
      h'.cells.length = h.cells.length := by
  obtain ⟨l, ⟨hd, f, hhead, hchain, ⟨t, hlast, htail⟩, hnodup⟩, hsnd⟩ := hw
  cases f with
  | zero => simp [chainFrom] at hchain
  | succ f =>
    obtain ⟨n, hread, hcase⟩ := chainFrom.cons_inv hchain
    rcases hcase with ⟨hn, hl⟩ | ⟨c, rest, hn, hrest, hl⟩
    · rw [hl] at hsnd
      simp at hsnd
    · subst hl
      obtain ⟨d1, rest2, hr2⟩ := chainFrom.head_eq hrest
      subst hr2
      simp only [List.map_cons, List.cons.injEq] at hsnd
      obtain ⟨hndata, hd1v, hrest2⟩ := hsnd
      obtain ⟨n1, hread1, hn1data⟩ := chainFrom.mem_read hrest (c, d1) (by simp)
      have hdq : MPSC_Queue.dequeue h q =
          some (n1.data, (h.write c ⟨none, n1.next⟩).free hd,
                { tail := q.tail, head := some c }) := by
        simp only [MPSC_Queue.dequeue, hhead, hread, hn, hread1]
      rw [List.map_cons, List.map_cons, List.nodup_cons, List.nodup_cons]
        at hnodup
      obtain ⟨hhdnotin, hcnotin, hnodup2⟩ := hnodup
      have hchain2 : chainFrom (h.write c ⟨none, n1.next⟩) f c =
          some ((c, none) :: rest2) :=
        chainFrom.set_head_data hrest hread1 hcnotin none
      have hchain3 : chainFrom ((h.write c ⟨none, n1.next⟩).free hd) f c =
          some ((c, none) :: rest2) := by
        apply chainFrom.congr_heap _ hchain2
        intro x hx
        have hhdx : hd ≠ x := by
          intro hh
          subst hh
          simp only [List.map_cons] at hx
          rcases List.mem_cons.mp hx with hx1 | hx2
          · exact hhdnotin (by simp [hx1])
          · exact hhdnotin (by simp [hx2])
        exact Heap.read_free_ne hhdx
      refine ⟨(h.write c ⟨none, n1.next⟩).free hd,
        { tail := q.tail, head := some c }, by rw [hdq, hn1data, hd1v], ?_,
        rfl, by simp [Heap.length_free, Heap.length_write]⟩
      refine ⟨(c, none) :: rest2, ⟨c, f, rfl, hchain3, ⟨?_, ?_⟩⟩, by
        simpa using hrest2⟩
      · cases rest2 with
        | nil =>
          refine ⟨(c, none), by simp, ?_⟩
          rw [htail]
          rw [List.getLast?_cons_cons] at hlast
          rw [List.getLast?] at hlast
          simp at hlast
          rw [← hlast]
        | cons r rs =>
          refine ⟨t, ?_, htail⟩
          rw [List.getLast?_cons_cons] at hlast ⊢
          rw [List.getLast?_cons_cons] at hlast
          exact hlast
      · rw [List.map_cons, List.nodup_cons]
        exact ⟨hcnotin, hnodup2⟩

/-- `is_empty` on a well-formed queue reports exactly whether the
element sequence is empty. -/
theorem is_empty_WF {α : Type} {h : Heap α} {q : MPSC_Queue α}
    {vs : List α} (hw : WF h q vs) :
    MPSC_Queue.is_empty h q = some vs.isEmpty := by
  obtain ⟨l, ⟨hd, f, hhead, hchain, _, _⟩, hsnd⟩ := hw
  cases f with
  | zero => simp [chainFrom] at hchain
  | succ f =>
    obtain ⟨n, hread, hcase⟩ := chainFrom.cons_inv hchain
    rcases hcase with ⟨hn, hl⟩ | ⟨c, rest, hn, hrest, hl⟩
    · subst hl
      simp at hsnd
      have hvs : vs = [] := by simpa using hsnd.2.symm
      subst hvs
      simp [MPSC_Queue.is_empty, hhead, hread, hn]
    · subst hl
      have hrne : rest ≠ [] := chainFrom.ne_nil hrest
      simp only [List.map_cons, List.cons.injEq] at hsnd
      have hvs : vs ≠ [] := by
        intro hv
        subst hv
        simp at hsnd
        exact hrne hsnd.2
      simp [MPSC_Queue.is_empty, hhead, hread, hn,
        List.isEmpty_iff, hvs]

/-- The size loop walks a chain whose last address is the tail
snapshot, counting every step. -/
theorem sizeAux_chain {α : Type} {h : Heap α} :
    ∀ {f a : Nat} {l : List (Nat × Option α)} {t : Nat × Option α},
    chainFrom h f a = some l → (l.map Prod.fst).Nodup →
    l.getLast? = some t →
    ∀ (c : Int) (fuel : Nat), l.length ≤ fuel →
    MPSC_Queue.sizeAux h fuel (some a) (some t.1) c =
      some (c + (l.length - 1 : Nat)) := by
  intro f
  induction f with
  | zero => intro a l t hc; simp [chainFrom] at hc
  | succ f ih =>
    intro a l t hc hnodup hlast c fuel hfuel
    obtain ⟨n, hread, hcase⟩ := chainFrom.cons_inv hc
    rcases hcase with ⟨hn, hl⟩ | ⟨c', rest, hn, hrest, hl⟩
    · subst hl
      rw [List.getLast?] at hlast
      simp at hlast
      cases fuel with
      | zero => simp at hfuel
      | succ fu =>
        rw [← hlast]
        simp [MPSC_Queue.sizeAux]
    · subst hl
      have hrne : rest ≠ [] := chainFrom.ne_nil hrest
      have hlast' : rest.getLast? = some t := by
        cases hgl : rest.getLast? with
        | none => exact absurd (List.getLast?_eq_none_iff.mp hgl) hrne
        | some t' =>
          rw [List.getLast?_cons, hgl] at hlast
          simpa using hlast
      rw [List.map_cons, List.nodup_cons] at hnodup
      have hat : a ≠ t.1 := by
        intro hat
        apply hnodup.1
        rw [hat]
        have hmem : t ∈ rest := List.mem_of_getLast?_eq_some hlast'
        exact List.mem_map.mpr ⟨t, hmem, rfl⟩
      cases fuel with
      | zero => simp at hfuel
      | succ fu =>
        have hrlen : rest.length ≤ fu := by simp at hfuel; omega
        have hrec := ih hrest hnodup.2 hlast' (c + 1) fu hrlen
        have hrpos : 1 ≤ rest.length := List.length_pos.mpr hrne
        simp only [MPSC_Queue.sizeAux, Option.some.injEq, if_neg
          (by simpa using hat), hread, hn]
        rw [hrec]
        congr 1
        simp only [List.length_cons]
        push_cast
        omega

/-- On a well-formed quiescent queue, `size_approx` returns the exact
element count. -/
theorem size_approx_WF {α : Type} {h : Heap α} {q : MPSC_Queue α}
    {vs : List α} (hw : WF h q vs) :
    MPSC_Queue.size_approx h q = some (vs.length : Int) := by
  obtain ⟨l, hco, hsnd⟩ := hw
  have hlen : l.length = vs.length + 1 := by
    have := congrArg List.length hsnd
    simpa using this
  have hle := chainOf_length_le hco
  obtain ⟨hd, f, hhead, hchain, ⟨t, hlast, htail⟩, hnodup⟩ := hco
  have hsz := sizeAux_chain hchain hnodup hlast 0 (h.cells.length + 1)
    (by omega)
  rw [MPSC_Queue.size_approx, hhead, htail, hsz, hlen]
  simp

/-- The cleanup loop frees exactly the nodes of the walked chain, in
walk order, leaving every other cell untouched. -/
theorem cleanAux_chain {α : Type} :
    ∀ {f : Nat} {h : Heap α} {a : Nat} {l : List (Nat × Option α)},
    chainFrom h f a = some l → (l.map Prod.fst).Nodup →
    ∀ (acc : List Nat) (fuel : Nat), l.length + 1 ≤ fuel →
    ∃ h', MPSC_Queue.cleanAux h fuel (some a) acc =
        some (h', acc.reverse ++ l.map Prod.fst) ∧
      (∀ x ∈ l.map Prod.fst, h'.read x = none) ∧
      (∀ x, x ∉ l.map Prod.fst → h'.read x = h.read x) ∧
      h'.cells.length = h.cells.length := by
  intro f
  induction f with
  | zero => intro h a l hc; simp [chainFrom] at hc
  | succ f ih =>
    intro h a l hc hnodup acc fuel hfuel
    obtain ⟨n, hread, hcase⟩ := chainFrom.cons_inv hc
    rcases hcase with ⟨hn, hl⟩ | ⟨c, rest, hn, hrest, hl⟩
    · subst hl
      match fuel, hfuel with
      | fu + 2, _ =>
        refine ⟨h.free a, ?_, ?_, ?_, Heap.length_free h a⟩
        · simp [MPSC_Queue.cleanAux, hread, hn]
        · intro x hx
          simp at hx
          subst hx
          exact Heap.read_free_self h x
        · intro x hx
          simp at hx
          exact Heap.read_free_ne (fun hax => hx hax.symm)
        
    · subst hl
      rw [List.map_cons, List.nodup_cons] at hnodup
      have hrest1 : chainFrom (h.free a) f c = some rest := by
        apply chainFrom.congr_heap _ hrest
        intro x hx
        exact Heap.read_free_ne (fun hax => hnodup.1 (hax ▸ hx))
      match fuel, hfuel with
      | fu + 1, hfuel =>
        have hlen : rest.length + 1 ≤ fu := by simp at hfuel; omega
        obtain ⟨h', heq, hfreed, hframe, hhlen⟩ :=
          ih hrest1 hnodup.2 (a :: acc) fu hlen
        refine ⟨h', ?_, ?_, ?_, by rw [hhlen, Heap.length_free]⟩
        · simp only [MPSC_Queue.cleanAux, hread, hn]
          rw [heq]
          simp
        · intro x hx
          simp only [List.map_cons] at hx
          rcases List.mem_cons.mp hx with hxa | hxr
          · subst hxa
            rw [hframe x hnodup.1, Heap.read_free_self]
          · exact hfreed x hxr
        · intro x hx
          simp only [List.map_cons, List.mem_cons] at hx
          push_neg at hx
          rw [hframe x hx.2]
          exact Heap.read_free_ne (fun hax => hx.1 hax.symm)

/-- Destructor behaviour on a well-formed queue: every chain node,
sentinel included, is freed exactly once; nothing else is touched. -/
theorem clean_nodes_chain {α : Type} {h : Heap α} {q : MPSC_Queue α}
    {l : List (Nat × Option α)} (hc : chainOf h q l) :
    ∃ h', MPSC_Queue.clean_nodes h q = some (h', l.map Prod.fst) ∧
      (∀ x ∈ l.map Prod.fst, h'.read x = none) ∧
      (∀ x, x ∉ l.map Prod.fst → h'.read x = h.read x) ∧
      h'.cells.length = h.cells.length := by
  have hle := chainOf_length_le hc
  obtain ⟨hd, f, hhead, hchain, _, hnodup⟩ := hc
  obtain ⟨h', heq, hfreed, hframe, hlen⟩ :=
    cleanAux_chain hchain hnodup [] (h.cells.length + 1) (by omega)
  refine ⟨h', ?_, hfreed, hframe, hlen⟩
  rw [MPSC_Queue.clean_nodes, hhead, heq]
  simp

/-- Destructor behaviour on a moved-from queue (null head): the loop
body never runs; nothing is freed. -/
theorem clean_nodes_moved {α : Type} (h : Heap α) (q : MPSC_Queue α)
    (hq : q.head = none) :
    MPSC_Queue.clean_nodes h q = some (h, []) := by
  rw [MPSC_Queue.clean_nodes, hq]
  simp [MPSC_Queue.cleanAux]

/-- A genuine (distinct-object) move assignment: the destination's old
chain is freed, the destination takes over the source's chain intact,
and the source is left with null head and tail. -/
theorem moveAssign_chain {α : Type} {h : Heap α}
    {self other : MPSC_Queue α} {lS lO : List (Nat × Option α)}
    (hcS : chainOf h self lS) (hcO : chainOf h other lO)
    (hdisj : ∀ x ∈ lS.map Prod.fst, x ∉ lO.map Prod.fst) :
    ∃ h', MPSC_Queue.moveAssign h self other false =
        some (h', { tail := other.tail, head := other.head },
              { tail := none, head := none }) ∧
      chainOf h' { tail := other.tail, head := other.head } lO ∧
      (∀ x ∈ lS.map Prod.fst, h'.read x = none) := by
  obtain ⟨h', heq, hfreed, hframe, hlen⟩ := clean_nodes_chain hcS
  refine ⟨h', ?_, ?_, hfreed⟩
  · rw [MPSC_Queue.moveAssign]
    simp only [Bool.false_eq_true, if_false]
    rw [heq]
  · obtain ⟨hd, f, hhead, hchain, hlast, hnodup⟩ := hcO
    refine ⟨hd, f, hhead, ?_, hlast, hnodup⟩
    apply chainFrom.congr_heap _ hchain
    intro x hx
    apply hframe
    intro hmem
    exact hdisj x hmem hx

/-- Move construction: the destination takes over the chain unchanged,
the source is left with null head and tail, and the heap is untouched. -/
theorem moveCtor_chain {α : Type} {h : Heap α} {other : MPSC_Queue α}
    {l : List (Nat × Option α)} (hc : chainOf h other l) :
    MPSC_Queue.moveCtor h other =
      (h, { tail := other.tail, head := other.head },
       { tail := none, head := none }) ∧
    chainOf h { tail := other.tail, head := other.head } l := by
  obtain ⟨hd, f, hhead, hchain, hlast, hnodup⟩ := hc
  exact ⟨rfl, ⟨hd, f, hhead, hchain, hlast, hnodup⟩⟩

theorem Heap.write_alloc_self {α : Type} (h : Heap α) (n : Node α) :
    (h.alloc n).1.write (h.alloc n).2 n = (h.alloc n).1 := by
  simp only [Heap.alloc, Heap.write]
  congr 1
  rw [List.set_append_right _ _ (Nat.le_refl _)]
  simp

/-- View an `MPSC_Queue` object through the field layout of
`MPMC_Queue` (inverse of `MPMC_Queue.toMPSC`). -/
def MPMC_Queue.ofMPSC {α : Type} (q : MPSC_Queue α) : MPMC_Queue α :=
  { head := q.head, tail := q.tail }

namespace MPMC_Queue

variable {α : Type}

theorem construct_eq (h : Heap α) :
    construct h = ((MPSC_Queue.construct h).1,
      ofMPSC (MPSC_Queue.construct h).2) := rfl

theorem is_empty_eq (h : Heap α) (q : MPMC_Queue α) :
    is_empty h q = MPSC_Queue.is_empty h q.toMPSC := rfl

theorem size_approx_eq (h : Heap α) (q : MPMC_Queue α) :
    size_approx h q = MPSC_Queue.size_approx h q.toMPSC := rfl

theorem clean_nodes_eq (h : Heap α) (q : MPMC_Queue α) :
    clean_nodes h q = MPSC_Queue.clean_nodes h q.toMPSC := rfl

theorem enqueue_eq (h : Heap α) (q : MPMC_Queue α) (v : α) :
    enqueue h q v = (MPSC_Queue.enqueue h q.toMPSC v).map
      (fun r => (r.1, ofMPSC r.2)) := by
  obtain ⟨qh, qt⟩ := q
  have hw := Heap.write_alloc_self h (⟨some v, none⟩ : Node α)
  simp only [enqueue, MPSC_Queue.enqueue, toMPSC, ofMPSC]
  rw [hw]
  cases qt with
  | none => rfl
  | some prev_tail =>
    cases hr : (h.alloc ⟨some v, none⟩).1.read prev_tail with
    | none => simp [hr]
    | some pn => simp [hr]

theorem dequeue_eq (h : Heap α) (q : MPMC_Queue α) (fuel : Nat) :
    dequeue h q (fuel + 1) = (MPSC_Queue.dequeue h q.toMPSC).map
      (fun r => (r.1, r.2.1, ofMPSC r.2.2)) := by
  obtain ⟨qh, qt⟩ := q
  cases qh with
  | none => rfl
  | some old_head =>
    cases hr : h.read old_head with
    | none => simp [dequeue, MPSC_Queue.dequeue, toMPSC, hr]
    | some onode =>
      cases hn : onode.next with
      | none => simp [dequeue, MPSC_Queue.dequeue, toMPSC, ofMPSC, hr, hn]
      | some next_node =>
        cases hr2 : h.read next_node with
        | none => simp [dequeue, MPSC_Queue.dequeue, toMPSC, hr, hn, hr2]
        | some nnode =>
          simp [dequeue, MPSC_Queue.dequeue, toMPSC, ofMPSC, hr, hn, hr2]

theorem moveAssign_eq (h : Heap α) (self other : MPMC_Queue α)
    (sameObject : Bool) :
    moveAssign h self other sameObject =
      (MPSC_Queue.moveAssign h self.toMPSC other.toMPSC sameObject).map
        (fun r => (r.1, ofMPSC r.2.1, ofMPSC r.2.2)) := by
  cases sameObject with
  | true => rfl
  | false =>
    simp only [moveAssign, MPSC_Queue.moveAssign, clean_nodes_eq,
      Bool.false_eq_true, if_false]
    cases MPSC_Queue.clean_nodes h self.toMPSC with
    | none => rfl
    | some r => rfl

theorem moveCtor_eq (h : Heap α) (other : MPMC_Queue α) :
    moveCtor h other =
      ((MPSC_Queue.moveCtor h other.toMPSC).1,
       ofMPSC (MPSC_Queue.moveCtor h other.toMPSC).2.1,
       ofMPSC (MPSC_Queue.moveCtor h other.toMPSC).2.2) := rfl

end MPMC_Queue

/-- Run a sequence of enqueues left to right on a single-consumer
queue. -/
def enqueueAll {α : Type} : List α → Heap α → MPSC_Queue α →
    Option (Heap α × MPSC_Queue α)
  | [], h, q => some (h, q)
  | v :: vs, h, q =>
    match MPSC_Queue.enqueue h q v with
    | none => none
    | some (h', q') => enqueueAll vs h' q'

/-- Run `n` successive dequeues, collecting the returned results in
order. -/
def dequeueN {α : Type} : Nat → Heap α → MPSC_Queue α →
    Option (List (Option α) × Heap α × MPSC_Queue α)
  | 0, h, q => some ([], h, q)
  | n + 1, h, q =>
    match MPSC_Queue.dequeue h q with
    | none => none
    | some (r, h', q') =>
      match dequeueN n h' q' with
      | none => none
      | some (rs, h'', q'') => some (r :: rs, h'', q'')

theorem enqueueAll_WF {α : Type} :
    ∀ {vs : List α} {h : Heap α} {q : MPSC_Queue α} {ws : List α},
    WF h q ws → ∃ h' q', enqueueAll vs h q = some (h', q') ∧
      WF h' q' (ws ++ vs) := by
  intro vs
  induction vs with
  | nil =>
    intro h q ws hw
    exact ⟨h, q, rfl, by simpa using hw⟩
  | cons v vs ih =>
    intro h q ws hw
    obtain ⟨h1, henq, hw1, _⟩ := enqueue_WF hw v
    obtain ⟨h', q', hrun, hw'⟩ := ih hw1
    refine ⟨h', q', ?_, by simpa using hw'⟩
    simp [enqueueAll, henq, hrun]

theorem dequeueN_WF {α : Type} :
    ∀ {vs : List α} {h : Heap α} {q : MPSC_Queue α},
    WF h q vs → ∃ h' q',
      dequeueN (vs.length + 1) h q = some (vs.map some ++ [none], h', q') ∧
      WF h' q' [] := by
  intro vs
  induction vs with
  | nil =>
    intro h q hw
    have hd := dequeue_empty_WF hw
    exact ⟨h, q, by simp [dequeueN, hd], hw⟩
  | cons v vs ih =>
    intro h q hw
    obtain ⟨h1, q1, hdq, hw1, _, _⟩ := dequeue_cons_WF hw
    obtain ⟨h', q', hrun, hw'⟩ := ih hw1
    refine ⟨h', q', ?_, hw'⟩
    show dequeueN (vs.length + 1 + 1) h q = _
    rw [dequeueN]
    simp only [hdq, hrun]
    simp

/-- States of a single-consumer queue reachable by construction
followed by any sequence of enqueues and dequeues. -/
inductive Reaches {α : Type} : Heap α → MPSC_Queue α → Prop where
  | construct (h : Heap α) :
      Reaches (MPSC_Queue.construct h).1 (MPSC_Queue.construct h).2
  | enqueue {h : Heap α} {q : MPSC_Queue α} {h' : Heap α}
      {q' : MPSC_Queue α} (v : α) : Reaches h q →
      MPSC_Queue.enqueue h q v = some (h', q') → Reaches h' q'
  | dequeue {h : Heap α} {q : MPSC_Queue α} {r : Option α}
      {h' : Heap α} {q' : MPSC_Queue α} : Reaches h q →
      MPSC_Queue.dequeue h q = some (r, h', q') → Reaches h' q'

/-- Every reachable state is well-formed for some element sequence. -/
theorem Reaches_WF {α : Type} {h : Heap α} {q : MPSC_Queue α}
    (hr : Reaches h q) : ∃ vs, WF h q vs := by
  induction hr with
  | construct h0 => exact ⟨[], construct_WF h0⟩
  | enqueue v _ heq ih =>
    obtain ⟨vs, hw⟩ := ih
    obtain ⟨h1, henq, hw1, _⟩ := enqueue_WF hw v
    rw [henq] at heq
    simp only [Option.some.injEq, Prod.mk.injEq] at heq
    obtain ⟨heq1, heq2⟩ := heq
    exact ⟨vs ++ [v], heq1 ▸ heq2 ▸ hw1⟩
  | dequeue _ heq ih =>
    obtain ⟨vs, hw⟩ := ih
    cases vs with
    | nil =>
      rw [dequeue_empty_WF hw] at heq
      simp only [Option.some.injEq, Prod.mk.injEq] at heq
      obtain ⟨-, heq1, heq2⟩ := heq
      exact ⟨[], heq1 ▸ heq2 ▸ hw⟩
    | cons v vs' =>
      obtain ⟨h1, q1, hdq, hw1, _, _⟩ := dequeue_cons_WF hw
      rw [hdq] at heq
      simp only [Option.some.injEq, Prod.mk.injEq] at heq
      obtain ⟨-, heq1, heq2⟩ := heq
      exact ⟨vs', heq1 ▸ heq2 ▸ hw1⟩

/-- The size loop never returns less than its running count: results
are bounded below by the starting count. -/
theorem sizeAux_ge {α : Type} {h : Heap α} :
    ∀ {fuel : Nat} {cur tl : Option Nat} {c n : Int},
    MPSC_Queue.sizeAux h fuel cur tl c = some n → c ≤ n := by
  intro fuel
  induction fuel with
  | zero => intro cur tl c n hs; simp [MPSC_Queue.sizeAux] at hs
  | succ fu ih =>
    intro cur tl c n hs
    by_cases hct : cur = tl
    · simp only [MPSC_Queue.sizeAux, if_pos hct, Option.some.injEq] at hs
      omega
    · cases cur with
      | none => simp [MPSC_Queue.sizeAux, if_neg hct] at hs
      | some cc =>
        cases hr : h.read cc with
        | none => simp [MPSC_Queue.sizeAux, if_neg hct, hr] at hs
        | some nd =>
          cases hn : nd.next with
          | none =>
            simp only [MPSC_Queue.sizeAux, if_neg hct, hr, hn,
              Option.some.injEq] at hs
            omega
          | some nxt =>
            simp only [MPSC_Queue.sizeAux, if_neg hct, hr, hn] at hs
            have hrec := ih hs
            omega

/-- A concrete well-formed single-consumer queue holding the single
element 5: sentinel at address 0, element node at address 1. -/
def sampleHeap : Heap Nat := ⟨[some ⟨none, some 1⟩, some ⟨some 5, none⟩]⟩

def sampleQueue : MPSC_Queue Nat := { tail := some 1, head := some 0 }

def sampleQueueM : MPMC_Queue Nat := { head := some 0, tail := some 1 }

theorem sampleChain : chainOf sampleHeap sampleQueue [(0, none), (1, some 5)] :=
  ⟨0, 2, rfl, by decide, ⟨(1, some 5), by decide, rfl⟩, by decide⟩

theorem sampleWF : WF sampleHeap sampleQueue [5] :=
  ⟨[(0, none), (1, some 5)], sampleChain, by decide⟩

/-- A heap holding two disjoint queues: a source queue with one element
(sentinel 0, element node 1) and an empty destination queue (sentinel 2). -/
def pairHeap : Heap Nat :=
  ⟨[some ⟨none, some 1⟩, some ⟨some 5, none⟩, some ⟨none, none⟩]⟩

def pairSrc : MPSC_Queue Nat := { tail := some 1, head := some 0 }

def pairDst : MPSC_Queue Nat := { tail := some 2, head := some 2 }

theorem pairSrcChain : chainOf pairHeap pairSrc [(0, none), (1, some 5)] :=
  ⟨0, 2, rfl, by decide, ⟨(1, some 5), by decide, rfl⟩, by decide⟩

theorem pairDstChain : chainOf pairHeap pairDst [(2, none)] :=
  ⟨2, 1, rfl, by decide, ⟨(2, none), by decide, rfl⟩, by decide⟩

/-- C1: for every sequence of values enqueued on a single-consumer
queue (in particular 1, 2, 3), successive dequeue calls return exactly
those values, each exactly once, in the order the enqueues completed,
followed by the empty-result once all are consumed. -/
theorem mpsc_fifo_enqueue_dequeue :
    (∀ (α : Type) (vs : List α), ∃ h1 q1 h2 q2,
      enqueueAll vs (MPSC_Queue.construct (⟨[]⟩ : Heap α)).1
        (MPSC_Queue.construct (⟨[]⟩ : Heap α)).2 = some (h1, q1) ∧
      dequeueN (vs.length + 1) h1 q1 =
        some (vs.map some ++ [none], h2, q2)) ∧
    (∃ h1 q1 h2 q2,
      enqueueAll [1, 2, 3] (MPSC_Queue.construct (⟨[]⟩ : Heap Nat)).1
        (MPSC_Queue.construct (⟨[]⟩ : Heap Nat)).2 = some (h1, q1) ∧
      dequeueN 4 h1 q1 = some ([some 1, some 2, some 3, none], h2, q2)) := by
  have hgen : ∀ (α : Type) (vs : List α), ∃ h1 q1 h2 q2,
      enqueueAll vs (MPSC_Queue.construct (⟨[]⟩ : Heap α)).1
        (MPSC_Queue.construct (⟨[]⟩ : Heap α)).2 = some (h1, q1) ∧
      dequeueN (vs.length + 1) h1 q1 =
        some (vs.map some ++ [none], h2, q2) := by
    intro α vs
    obtain ⟨h1, q1, hrun, hw1⟩ :=
      enqueueAll_WF (construct_WF (⟨[]⟩ : Heap α))
    obtain ⟨h2, q2, hdrain, _⟩ := dequeueN_WF (by simpa using hw1)
    exact ⟨h1, q1, h2, q2, hrun, hdrain⟩
  refine ⟨hgen, ?_⟩
  obtain ⟨h1, q1, h2, q2, hrun, hdrain⟩ := hgen Nat [1, 2, 3]
  exact ⟨h1, q1, h2, q2, hrun, by simpa using hdrain⟩

/-- C2 (evaluation at the failing interleaving): start from an
MPMC queue holding the single element 42 (sentinel node 0, element node
1).  Consumer A performs the first two loads of `dequeue` (reads
`head` = node 0, then its next-link).  Consumer B then runs a complete
`dequeue`, wins the CAS and `delete`s node 0.  Node 0 is now
unallocated, so A's subsequent `old_head->next` load — the very load
the retry loop performs next — dereferences a freed node: the naive
immediate free makes the use-after-free interleaving real, there is no
reclamation layer in the code. -/
theorem mpmc_dequeue_use_after_free :
    MPMC_Queue.construct (⟨[]⟩ : Heap Nat) =
      (⟨[some ⟨none, none⟩]⟩, { head := some 0, tail := some 0 }) ∧
    MPMC_Queue.enqueue (⟨[some ⟨none, none⟩]⟩ : Heap Nat)
        { head := some 0, tail := some 0 } 42 =
      some (⟨[some ⟨none, some 1⟩, some ⟨some 42, none⟩]⟩,
            { head := some 0, tail := some 1 }) ∧
    MPMC_Queue.load_head
        ({ head := some 0, tail := some 1 } : MPMC_Queue Nat) = some 0 ∧
    MPMC_Queue.load_next
        (⟨[some ⟨none, some 1⟩, some ⟨some 42, none⟩]⟩ : Heap Nat) 0 =
      some (some 1) ∧
    MPMC_Queue.dequeue (⟨[some ⟨none, some 1⟩, some ⟨some 42, none⟩]⟩ : Heap Nat)
        { head := some 0, tail := some 1 } 1 =
      some (some 42, ⟨[none, some ⟨none, none⟩]⟩,
            { head := some 1, tail := some 1 }) ∧
    Heap.read (⟨[none, some ⟨none, none⟩]⟩ : Heap Nat) 0 = none ∧
    MPMC_Queue.load_next (⟨[none, some ⟨none, none⟩]⟩ : Heap Nat) 0 = none := by
  decide

/-- C10: move-assigning a queue to itself (the `this != &other` guard
fires) is a no-op for both variants: same heap, same head, same tail,
nothing freed. -/
theorem self_move_assign_noop :
    ∀ (α : Type) (h : Heap α) (q : MPSC_Queue α) (qm : MPMC_Queue α),
      MPSC_Queue.moveAssign h q q true = some (h, q, q) ∧
      MPMC_Queue.moveAssign h qm qm true = some (h, qm, qm) :=
  fun _ _ _ _ => ⟨rfl, rfl⟩

/-- C4: in every state reachable by construction, enqueues and
dequeues, the chain from `head` is non-empty, its head node is the
unique node carrying no payload (the live sentinel), and every other
reachable node carries a payload. -/
theorem mpsc_sentinel_invariant {α : Type} {h : Heap α}
    {q : MPSC_Queue α} (hr : Reaches h q) :
    ∃ hd f l, q.head = some hd ∧ chainFrom h f hd = some l ∧ l ≠ [] ∧
      ∀ p ∈ l, (p.2 = none ↔ p.1 = hd) := by
  obtain ⟨vs, l, hco, hsnd⟩ := Reaches_WF hr
  obtain ⟨hd, f, hhead, hchain, _, hnodup⟩ := hco
  refine ⟨hd, f, l, hhead, hchain, chainFrom.ne_nil hchain, ?_⟩
  obtain ⟨d0, rest, hl⟩ := chainFrom.head_eq hchain
  subst hl
  simp only [List.map_cons, List.cons.injEq] at hsnd
  obtain ⟨hd0, hrest⟩ := hsnd
  rw [List.map_cons, List.nodup_cons] at hnodup
  intro p hp
  rcases List.mem_cons.mp hp with hph | hpt
  · subst hph
    simp [hd0]
  · constructor
    · intro hp2
      exfalso
      have hmem : p.2 ∈ rest.map Prod.snd := List.mem_map.mpr ⟨p, hpt, rfl⟩
      rw [hrest, hp2] at hmem
      obtain ⟨x, -, hx⟩ := List.mem_map.mp hmem
      simp at hx
    · intro hp1
      exfalso
      apply hnodup.1
      rw [← hp1]
      exact List.mem_map.mpr ⟨p, hpt, rfl⟩

theorem mpsc_sentinel_invariant_witness :
    Reaches (MPSC_Queue.construct (⟨[]⟩ : Heap Nat)).1
      (MPSC_Queue.construct (⟨[]⟩ : Heap Nat)).2 ∧
    ∃ hd f l,
      (MPSC_Queue.construct (⟨[]⟩ : Heap Nat)).2.head = some hd ∧
      chainFrom (MPSC_Queue.construct (⟨[]⟩ : Heap Nat)).1 f hd = some l ∧
      l ≠ [] ∧ ∀ p ∈ l, (p.2 = none ↔ p.1 = hd) :=
  ⟨Reaches.construct ⟨[]⟩,
   mpsc_sentinel_invariant (Reaches.construct ⟨[]⟩)⟩

/-- C5: on a well-formed queue, dequeue never faults: with a null
sentinel next-link it returns the empty-result leaving heap and queue
unchanged, otherwise it returns the fully-formed first element; the
same holds for the multi-consumer dequeue at any retry budget. -/
theorem dequeue_total_empty_or_element {α : Type} {h : Heap α}
    {q : MPSC_Queue α} {vs : List α} (hw : WF h q vs) :
    (∃ r h' q', MPSC_Queue.dequeue h q = some (r, h', q')) ∧
    (vs = [] → MPSC_Queue.dequeue h q = some (none, h, q)) ∧
    (∀ v vs', vs = v :: vs' →
      ∃ h' q', MPSC_Queue.dequeue h q = some (some v, h', q')) ∧
    (∀ (qm : MPMC_Queue α) (fuel : Nat), qm.toMPSC = q →
      (∃ r h' qm', MPMC_Queue.dequeue h qm (fuel + 1) = some (r, h', qm')) ∧
      (vs = [] → MPMC_Queue.dequeue h qm (fuel + 1) = some (none, h, qm)) ∧
      (∀ v vs', vs = v :: vs' →
        ∃ h' qm', MPMC_Queue.dequeue h qm (fuel + 1) = some (some v, h', qm'))) := by
  have hemp : vs = [] → MPSC_Queue.dequeue h q = some (none, h, q) :=
    fun hv => dequeue_empty_WF (hv ▸ hw)
  have hcons : ∀ v vs', vs = v :: vs' →
      ∃ h' q', MPSC_Queue.dequeue h q = some (some v, h', q') := by
    intro v vs' hv
    obtain ⟨h', q', hdq, -, -, -⟩ := dequeue_cons_WF (hv ▸ hw)
    exact ⟨h', q', hdq⟩
  have htot : ∃ r h' q', MPSC_Queue.dequeue h q = some (r, h', q') := by
    cases vs with
    | nil => exact ⟨none, h, q, hemp rfl⟩
    | cons v vs' =>
      obtain ⟨h', q', hdq⟩ := hcons v vs' rfl
      exact ⟨some v, h', q', hdq⟩
  refine ⟨htot, hemp, hcons, ?_⟩
  intro qm fuel hqm
  subst hqm
  refine ⟨?_, ?_, ?_⟩
  · obtain ⟨r, h', q', hd⟩ := htot
    refine ⟨r, h', MPMC_Queue.ofMPSC q', ?_⟩
    rw [MPMC_Queue.dequeue_eq, hd]
    rfl
  · intro hv
    rw [MPMC_Queue.dequeue_eq, hemp hv]
    rfl
  · intro v vs' hv
    obtain ⟨h', q', hdq⟩ := hcons v vs' hv
    refine ⟨h', MPMC_Queue.ofMPSC q', ?_⟩
    rw [MPMC_Queue.dequeue_eq, hdq]
    rfl

theorem dequeue_total_empty_or_element_witness :
    WF sampleHeap sampleQueue [5] ∧
    ((∃ r h' q', MPSC_Queue.dequeue sampleHeap sampleQueue = some (r, h', q')) ∧
     ([5] = ([] : List Nat) →
       MPSC_Queue.dequeue sampleHeap sampleQueue = some (none, sampleHeap, sampleQueue)) ∧
     (∀ v vs', [5] = v :: vs' → ∃ h' q',
       MPSC_Queue.dequeue sampleHeap sampleQueue = some (some v, h', q')) ∧
     (∀ (qm : MPMC_Queue Nat) (fuel : Nat), qm.toMPSC = sampleQueue →
       (∃ r h' qm', MPMC_Queue.dequeue sampleHeap qm (fuel + 1) = some (r, h', qm')) ∧
       ([5] = ([] : List Nat) →
         MPMC_Queue.dequeue sampleHeap qm (fuel + 1) = some (none, sampleHeap, qm)) ∧
       (∀ v vs', [5] = v :: vs' → ∃ h' qm',
         MPMC_Queue.dequeue sampleHeap qm (fuel + 1) = some (some v, h', qm')))) :=
  ⟨sampleWF, dequeue_total_empty_or_element sampleWF⟩

/-- C6: on a well-formed queue, enqueue always succeeds, following the
allocate / tail-exchange / link steps of its body; afterwards the fresh
node carrying the value is the tail and is reachable as the last node
of the chain.  The multi-consumer enqueue behaves identically. -/
theorem enqueue_appends_new_tail {α : Type} {h : Heap α}
    {q : MPSC_Queue α} {vs : List α} (hw : WF h q vs) (v : α) :
    (∃ h' q', MPSC_Queue.enqueue h q v = some (h', q') ∧
      q'.tail = some h.cells.length ∧
      WF h' q' (vs ++ [v]) ∧
      ∃ hd f l, q'.head = some hd ∧
        chainFrom h' f hd = some (l ++ [(h.cells.length, some v)])) ∧
    (∀ qm : MPMC_Queue α, qm.toMPSC = q →
      ∃ h' qm', MPMC_Queue.enqueue h qm v = some (h', qm') ∧
        qm'.tail = some h.cells.length ∧
        WF h' qm'.toMPSC (vs ++ [v])) := by
  obtain ⟨l, hco, hsnd⟩ := hw
  obtain ⟨h', henq, hco', hlen⟩ := enqueue_chain hco v
  constructor
  · refine ⟨h', { tail := some h.cells.length, head := q.head }, henq, rfl,
      ⟨l ++ [(h.cells.length, some v)], hco', by simp [hsnd]⟩, ?_⟩
    obtain ⟨hd, f, hhead, hchain, -, -⟩ := hco'
    exact ⟨hd, f, l, hhead, hchain⟩
  · intro qm hqm
    subst hqm
    refine ⟨h', MPMC_Queue.ofMPSC
      { tail := some h.cells.length, head := qm.toMPSC.head }, ?_, rfl, ?_⟩
    · rw [MPMC_Queue.enqueue_eq, henq]
      rfl
    · exact ⟨l ++ [(h.cells.length, some v)], hco', by simp [hsnd]⟩

theorem enqueue_appends_new_tail_witness :
    WF sampleHeap sampleQueue [5] ∧
    ((∃ h' q', MPSC_Queue.enqueue sampleHeap sampleQueue 7 = some (h', q') ∧
      q'.tail = some sampleHeap.cells.length ∧
      WF h' q' ([5] ++ [7]) ∧
      ∃ hd f l, q'.head = some hd ∧
        chainFrom h' f hd = some (l ++ [(sampleHeap.cells.length, some 7)])) ∧
    (∀ qm : MPMC_Queue Nat, qm.toMPSC = sampleQueue →
      ∃ h' qm', MPMC_Queue.enqueue sampleHeap qm 7 = some (h', qm') ∧
        qm'.tail = some sampleHeap.cells.length ∧
        WF h' qm'.toMPSC ([5] ++ [7]))) :=
  ⟨sampleWF, enqueue_appends_new_tail sampleWF 7⟩

/-- C7: on a well-formed quiescent queue holding n elements,
`size_approx` walks the chain and returns exactly n (both variants);
moreover every value `size_approx` ever returns is non-negative. -/
theorem size_approx_exact_when_quiescent {α : Type} {h : Heap α}
    {q : MPSC_Queue α} {vs : List α} (hw : WF h q vs) :
    MPSC_Queue.size_approx h q = some (vs.length : Int) ∧
    (0 : Int) ≤ (vs.length : Int) ∧
    (∀ qm : MPMC_Queue α, qm.toMPSC = q →
      MPMC_Queue.size_approx h qm = some (vs.length : Int)) ∧
    (∀ (h2 : Heap α) (q2 : MPSC_Queue α) (n : Int),
      MPSC_Queue.size_approx h2 q2 = some n → 0 ≤ n) ∧
    (∀ (h2 : Heap α) (q2 : MPSC_Queue α) (hd : Nat) (nd : Node α),
      q2.head = some hd → q2.tail ≠ some hd → h2.read hd = some nd →
      nd.next = none → MPSC_Queue.size_approx h2 q2 = some 0) := by
  have hs := size_approx_WF hw
  refine ⟨hs, by exact_mod_cast Nat.zero_le vs.length, ?_, ?_, ?_⟩
  · intro qm hqm
    rw [MPMC_Queue.size_approx_eq, hqm]
    exact hs
  · intro h2 q2 n hs2
    rw [MPSC_Queue.size_approx] at hs2
    exact sizeAux_ge hs2
  · intro h2 q2 hd nd hhd hne hrd hnx
    have hne' : some hd ≠ q2.tail := fun hcon => hne hcon.symm
    simp [MPSC_Queue.size_approx, MPSC_Queue.sizeAux, hhd, hne', hrd, hnx]

theorem size_approx_exact_when_quiescent_witness :
    WF sampleHeap sampleQueue [5] ∧
    (MPSC_Queue.size_approx sampleHeap sampleQueue = some 1 ∧
     (0 : Int) ≤ ((1 : Nat) : Int) ∧
     (∀ qm : MPMC_Queue Nat, qm.toMPSC = sampleQueue →
       MPMC_Queue.size_approx sampleHeap qm = some 1) ∧
     (∀ (h2 : Heap Nat) (q2 : MPSC_Queue Nat) (n : Int),
       MPSC_Queue.size_approx h2 q2 = some n → 0 ≤ n) ∧
     (∀ (h2 : Heap Nat) (q2 : MPSC_Queue Nat) (hd : Nat) (nd : Node Nat),
       q2.head = some hd → q2.tail ≠ some hd → h2.read hd = some nd →
       nd.next = none → MPSC_Queue.size_approx h2 q2 = some 0)) :=
  ⟨sampleWF, size_approx_exact_when_quiescent sampleWF⟩

/-- C8: on a well-formed queue, `is_empty` reads the head's next-link
and reports exactly whether any undequeued element remains: true when
fully drained, false otherwise (both variants). -/
theorem is_empty_reports_drained {α : Type} {h : Heap α}
    {q : MPSC_Queue α} {vs : List α} (hw : WF h q vs) :
    MPSC_Queue.is_empty h q = some vs.isEmpty ∧
    (vs = [] → MPSC_Queue.is_empty h q = some true) ∧
    (vs ≠ [] → MPSC_Queue.is_empty h q = some false) ∧
    (∀ qm : MPMC_Queue α, qm.toMPSC = q →
      MPMC_Queue.is_empty h qm = some vs.isEmpty) := by
  have hs := is_empty_WF hw
  refine ⟨hs, ?_, ?_, ?_⟩
  · intro hv
    subst hv
    exact hs
  · intro hv
    rw [hs]
    simp [List.isEmpty_iff, hv]
  · intro qm hqm
    rw [MPMC_Queue.is_empty_eq, hqm]
    exact hs

theorem is_empty_reports_drained_witness :
    WF sampleHeap sampleQueue [5] ∧
    (MPSC_Queue.is_empty sampleHeap sampleQueue = some ([5].isEmpty) ∧
     ([5] = ([] : List Nat) →
       MPSC_Queue.is_empty sampleHeap sampleQueue = some true) ∧
     (([5] : List Nat) ≠ [] →
       MPSC_Queue.is_empty sampleHeap sampleQueue = some false) ∧
     (∀ qm : MPMC_Queue Nat, qm.toMPSC = sampleQueue →
       MPMC_Queue.is_empty sampleHeap qm = some ([5].isEmpty))) :=
  ⟨sampleWF, is_empty_reports_drained sampleWF⟩

/-- C3 counterexample: move-construct a freshly constructed queue A
into B.  A is left with null head and tail, so `is_empty` and `dequeue`
on A dereference a null pointer (modelled as the fault result `none`) —
whereas on a freshly constructed queue `is_empty` returns true and
`dequeue` returns the empty-result.  The moved-from A does not behave
as an empty, freshly-constructed queue. -/
theorem mpsc_moved_from_not_fresh :
    MPSC_Queue.moveCtor (⟨[some ⟨none, none⟩]⟩ : Heap Nat)
      { tail := some 0, head := some 0 } =
      (⟨[some ⟨none, none⟩]⟩, { tail := some 0, head := some 0 },
       { tail := none, head := none }) ∧
    MPSC_Queue.is_empty (⟨[some ⟨none, none⟩]⟩ : Heap Nat)
      { tail := none, head := none } = none ∧
    MPSC_Queue.dequeue (⟨[some ⟨none, none⟩]⟩ : Heap Nat)
      { tail := none, head := none } = none ∧
    MPSC_Queue.is_empty (MPSC_Queue.construct (⟨[]⟩ : Heap Nat)).1
      (MPSC_Queue.construct (⟨[]⟩ : Heap Nat)).2 = some true ∧
    MPSC_Queue.dequeue (MPSC_Queue.construct (⟨[]⟩ : Heap Nat)).1
      (MPSC_Queue.construct (⟨[]⟩ : Heap Nat)).2 =
      some (none, (MPSC_Queue.construct (⟨[]⟩ : Heap Nat)).1,
            (MPSC_Queue.construct (⟨[]⟩ : Heap Nat)).2) := by
  decide

/-- C3 (amended): after move-constructing, or move-assigning between
distinct objects with disjoint chains, the destination yields exactly
the source's prior elements in order; the source is left with null head
and tail, and `dequeue` / `is_empty` / `enqueue` on it fault (null
dereference) rather than behaving as a fresh empty queue.  The
multi-consumer move assignment behaves the same way. -/
theorem move_transfer_amended {α : Type} {h : Heap α}
    {A : MPSC_Queue α} {lA : List (Nat × Option α)} {vs : List α}
    (hcA : chainOf h A lA)
    (hsnd : lA.map Prod.snd = none :: vs.map some) :
    (MPSC_Queue.moveCtor h A =
        (h, { tail := A.tail, head := A.head },
         { tail := none, head := none }) ∧
      WF h { tail := A.tail, head := A.head } vs ∧
      MPSC_Queue.dequeue h ({ tail := none, head := none } : MPSC_Queue α) =
        none ∧
      MPSC_Queue.is_empty h ({ tail := none, head := none } : MPSC_Queue α) =
        none ∧
      (∀ v : α, MPSC_Queue.enqueue h
        ({ tail := none, head := none } : MPSC_Queue α) v = none)) ∧
    (∀ (B : MPSC_Queue α) (lB : List (Nat × Option α)), chainOf h B lB →
      (∀ x ∈ lB.map Prod.fst, x ∉ lA.map Prod.fst) →
      ∃ h', MPSC_Queue.moveAssign h B A false =
          some (h', { tail := A.tail, head := A.head },
                { tail := none, head := none }) ∧
        WF h' { tail := A.tail, head := A.head } vs ∧
        MPSC_Queue.dequeue h'
          ({ tail := none, head := none } : MPSC_Queue α) = none) ∧
    (∀ (Am B : MPMC_Queue α) (lB : List (Nat × Option α)),
      Am.toMPSC = A → chainOf h B.toMPSC lB →
      (∀ x ∈ lB.map Prod.fst, x ∉ lA.map Prod.fst) →
      ∃ h' Bm' Am', MPMC_Queue.moveAssign h B Am false =
          some (h', Bm', Am') ∧
        WF h' Bm'.toMPSC vs ∧
        Am' = { head := none, tail := none } ∧
        MPMC_Queue.dequeue h' Am' 1 = none) := by
  have hassign : ∀ (B : MPSC_Queue α) (lB : List (Nat × Option α)),
      chainOf h B lB →
      (∀ x ∈ lB.map Prod.fst, x ∉ lA.map Prod.fst) →
      ∃ h', MPSC_Queue.moveAssign h B A false =
          some (h', { tail := A.tail, head := A.head },
                { tail := none, head := none }) ∧
        WF h' { tail := A.tail, head := A.head } vs ∧
        MPSC_Queue.dequeue h'
          ({ tail := none, head := none } : MPSC_Queue α) = none := by
    intro B lB hcB hdisj
    obtain ⟨h', heq, hco', -⟩ := moveAssign_chain hcB hcA hdisj
    exact ⟨h', heq, ⟨lA, hco', hsnd⟩, rfl⟩
  refine ⟨?_, hassign, ?_⟩
  · obtain ⟨hctor, hco'⟩ := moveCtor_chain hcA
    exact ⟨hctor, ⟨lA, hco', hsnd⟩, rfl, rfl, fun v => rfl⟩
  · intro Am B lB hAm hcB hdisj
    subst hAm
    obtain ⟨h', heq, hwf', -⟩ := hassign B.toMPSC lB hcB hdisj
    refine ⟨h',
      MPMC_Queue.ofMPSC { tail := Am.toMPSC.tail, head := Am.toMPSC.head },
      { head := none, tail := none }, ?_, hwf', rfl, rfl⟩
    rw [MPMC_Queue.moveAssign_eq, heq]
    rfl

theorem move_transfer_amended_witness :
    chainOf pairHeap pairSrc [(0, none), (1, some 5)] ∧
    ([(0, none), (1, some 5)].map Prod.snd = none :: [5].map some) ∧
    ((MPSC_Queue.moveCtor pairHeap pairSrc =
        (pairHeap, { tail := pairSrc.tail, head := pairSrc.head },
         { tail := none, head := none }) ∧
      WF pairHeap { tail := pairSrc.tail, head := pairSrc.head } [5] ∧
      MPSC_Queue.dequeue pairHeap
        ({ tail := none, head := none } : MPSC_Queue Nat) = none ∧
      MPSC_Queue.is_empty pairHeap
        ({ tail := none, head := none } : MPSC_Queue Nat) = none ∧
      (∀ v : Nat, MPSC_Queue.enqueue pairHeap
        ({ tail := none, head := none } : MPSC_Queue Nat) v = none)) ∧
    (∀ (B : MPSC_Queue Nat) (lB : List (Nat × Option Nat)),
      chainOf pairHeap B lB →
      (∀ x ∈ lB.map Prod.fst, x ∉ [(0, none), (1, some 5)].map Prod.fst) →
      ∃ h', MPSC_Queue.moveAssign pairHeap B pairSrc false =
          some (h', { tail := pairSrc.tail, head := pairSrc.head },
                { tail := none, head := none }) ∧
        WF h' { tail := pairSrc.tail, head := pairSrc.head } [5] ∧
        MPSC_Queue.dequeue h'
          ({ tail := none, head := none } : MPSC_Queue Nat) = none) ∧
    (∀ (Am B : MPMC_Queue Nat) (lB : List (Nat × Option Nat)),
      Am.toMPSC = pairSrc → chainOf pairHeap B.toMPSC lB →
      (∀ x ∈ lB.map Prod.fst, x ∉ [(0, none), (1, some 5)].map Prod.fst) →
      ∃ h' Bm' Am', MPMC_Queue.moveAssign pairHeap B Am false =
          some (h', Bm', Am') ∧
        WF h' Bm'.toMPSC [5] ∧
        Am' = { head := none, tail := none } ∧
        MPMC_Queue.dequeue h' Am' 1 = none)) :=
  ⟨pairSrcChain, by decide,
   move_transfer_amended pairSrcChain (by decide)⟩

/-- C9: destroying a well-formed queue walks the chain from `head` and
frees exactly its nodes — each exactly once (the freed list has no
duplicates), the sentinel included, with every other heap cell left
untouched; a moved-from queue (null head) is tolerated and frees
nothing. -/
theorem destructor_frees_each_node_once {α : Type} {h : Heap α}
    {q : MPSC_Queue α} {l : List (Nat × Option α)}
    (hco : chainOf h q l) :
    (∃ h', MPSC_Queue.clean_nodes h q = some (h', l.map Prod.fst) ∧
      (l.map Prod.fst).Nodup ∧
      (∀ hd, q.head = some hd → hd ∈ l.map Prod.fst) ∧
      (∀ x ∈ l.map Prod.fst, h'.read x = none) ∧
      (∀ x, x ∉ l.map Prod.fst → h'.read x = h.read x)) ∧
    (∀ (h2 : Heap α) (q2 : MPSC_Queue α), q2.head = none →
      MPSC_Queue.clean_nodes h2 q2 = some (h2, [])) := by
  constructor
  · obtain ⟨h', heq, hfreed, hframe, -⟩ := clean_nodes_chain hco
    obtain ⟨hd0, f, hhead, hchain, -, hnodup⟩ := hco
    refine ⟨h', heq, hnodup, ?_, hfreed, hframe⟩
    intro hd hh
    rw [hhead] at hh
    obtain ⟨d, rest, hl⟩ := chainFrom.head_eq hchain
    have hhd : hd = hd0 := (Option.some.inj hh).symm
    subst hhd
    rw [hl]
    simp
  · intro h2 q2 hq2
    exact clean_nodes_moved h2 q2 hq2

theorem destructor_frees_each_node_once_witness :
    chainOf sampleHeap sampleQueue [(0, none), (1, some 5)] ∧
    ((∃ h', MPSC_Queue.clean_nodes sampleHeap sampleQueue =
        some (h', [(0, none), (1, some 5)].map Prod.fst) ∧
      ([(0, none), (1, some 5)].map Prod.fst).Nodup ∧
      (∀ hd, sampleQueue.head = some hd →
        hd ∈ [(0, none), (1, some 5)].map Prod.fst) ∧
      (∀ x ∈ [(0, none), (1, some 5)].map Prod.fst, h'.read x = none) ∧
      (∀ x, x ∉ [(0, none), (1, some 5)].map Prod.fst →
        h'.read x = sampleHeap.read x)) ∧
    (∀ (h2 : Heap Nat) (q2 : MPSC_Queue Nat), q2.head = none →
      MPSC_Queue.clean_nodes h2 q2 = some (h2, []))) :=
  ⟨sampleChain, destructor_frees_each_node_once sampleChain⟩
